import Mathlib

/-!
Verification of the txseq pipeline scripts (`src/txseq/pipeline_bamqc.py` and
`src/pipelines/pipeline_cram2fastq.py`) against their specification.

The Python tasks are shallowly embedded: the small pure computations
(the three-prime-bias ratio, the validation summary, the cell/CRAM grouping,
the QC-summary SQL assembly and its relational semantics, the sentinel
sequencing) become executable Lean functions over explicit data.  Floating
point arithmetic of the source is modelled with exact rationals; the numpy
mean of an empty selection (NaN) and division by a zero/NaN denominator are
modelled with `Option`.
-/

namespace Txseq

/-! ### Three prime bias (`pipeline_bamqc.py`, `threePrimeBias`)

A coverage histogram row has a `normalized_position` column and an
`All_Reads.normalized_coverage` column.  The task computes
`np.mean(df[cov][(df[x] > 70) & (df[x] < 90)])` divided by
`np.mean(df[cov][(df[x] > 20) & (df[x] < 90)])` and writes the result
with `"%.2f"` formatting below a `three_prime_bias` header line. -/

/-- One row of the Picard coverage histogram read by `threePrimeBias`:
`normalized_position` and `All_Reads.normalized_coverage`. -/
structure CovRow where
  normalized_position : ℚ
  coverage : ℚ
deriving DecidableEq

/-- `np.mean` of a selected column: `none` models the NaN produced on an
empty selection, otherwise sum over length. -/
def npMean (l : List ℚ) : Option ℚ :=
  if l.isEmpty then none else some (l.sum / (l.length : ℚ))

/-- The coverage values selected by `df[cov][(df[x] > 70) & (df[x] < 90)]`. -/
def threePrimeWindow (df : List CovRow) : List ℚ :=
  (df.filter (fun r => decide (70 < r.normalized_position ∧ r.normalized_position < 90))).map
    (fun r => r.coverage)

/-- The coverage values selected by `df[cov][(df[x] > 20) & (df[x] < 90)]`. -/
def transcriptBodyWindow (df : List CovRow) : List ℚ :=
  (df.filter (fun r => decide (20 < r.normalized_position ∧ r.normalized_position < 90))).map
    (fun r => r.coverage)

/-- `bias = three_prime_coverage / transcript_body_coverage`: `none` models a
NaN numerator or denominator, and an (unguarded) exactly-zero denominator,
none of which denote a rational number. -/
def threePrimeBias (df : List CovRow) : Option ℚ :=
  match npMean (threePrimeWindow df), npMean (transcriptBodyWindow df) with
  | some a, some b => if b = 0 then none else some (a / b)
  | _, _ => none

/-- Rounding to two decimal places, the value denoted by `"%.2f" % bias`. -/
def round2 (q : ℚ) : ℚ := ((round (100 * q) : ℤ) : ℚ) / 100

/-- Rendering of `"%.2f" % q`: sign, integer part, point, two digits. -/
def fmt2 (q : ℚ) : String :=
  let n : ℤ := round (100 * q)
  let sign := if n < 0 then "-" else ""
  let a := n.natAbs
  sign ++ toString (a / 100) ++ "." ++ (if a % 100 < 10 then "0" else "") ++ toString (a % 100)

/-- The lines written to the `.three.prime.bias` output file: the
`three_prime_bias` header and the `"%.2f"`-formatted bias (`none` when the
bias itself is undefined). -/
def threePrimeBiasFileLines (df : List CovRow) : Option (List String) :=
  (threePrimeBias df).map (fun q => ["three_prime_bias", fmt2 q])

/-- Value of a decimal digit character. -/
def digitVal (c : Char) : Option ℕ :=
  if '0' ≤ c ∧ c ≤ '9' then some (c.toNat - '0'.toNat) else none

/-- Parse a non-empty digit string as a natural number. -/
def parseDigits : List Char → Option ℕ
  | [] => none
  | cs => cs.foldl (fun acc c => acc.bind (fun n => (digitVal c).map (fun d => 10 * n + d)))
      (some 0)

/-- Split a character list at the first occurrence of `sep`. -/
def splitAtFirst (sep : Char) : List Char → Option (List Char × List Char)
  | [] => none
  | c :: cs =>
    if c = sep then some ([], cs)
    else (splitAtFirst sep cs).map (fun p => (c :: p.1, p.2))

/-- Parse an unsigned fixed-point numeral with exactly two digits after the
point, as an (integer part, fractional part) pair. -/
def parseUnsignedF2 (l : List Char) : Option (ℕ × ℕ) :=
  match splitAtFirst '.' l with
  | some (a, b) =>
    if b.length = 2 then
      match parseDigits a, parseDigits b with
      | some i, some f => some (i, f)
      | _, _ => none
    else none
  | none => none

/-- Parse a `"%.2f"`-formatted string into its sign, integer part and
two-digit fractional part. -/
def parseF2 (s : String) : Option (Bool × ℕ × ℕ) :=
  match s.data with
  | '-' :: rest => (parseUnsignedF2 rest).map (fun p => (true, p))
  | l => (parseUnsignedF2 l).map (fun p => (false, p))

/-- The rational denoted by a parsed `"%.2f"` string. -/
def f2Value (p : Bool × ℕ × ℕ) : ℚ :=
  (if p.1 then -1 else 1) * ((p.2.1 : ℚ) + (p.2.2 : ℚ) / 100)

/-- A coverage table whose bias is `1/3`: the narrow window holds coverage 1,
the wide window holds coverages 1 and 5 (mean 3). -/
def demoCovThird : List CovRow := [⟨80, 1⟩, ⟨30, 5⟩]

/-- A non-empty coverage table with no row strictly between positions 20
and 90. -/
def demoCovEmptyBody : List CovRow := [⟨5, 1⟩, ⟨95, 2⟩]

/-- A coverage table whose bias is `4/3`. -/
def demoCovSimple : List CovRow := [⟨80, 4⟩, ⟨30, 2⟩]

/-! ### Validation aggregation (`pipeline_cram2fastq.py`, `inspectValidations`)

The task opens the summary file, loops over the validation files writing one
tab-separated line (file name, recorded exit status) per file and collecting
the integer exit statuses, closes the summary file, and only then raises a
`ValueError` when `sum(exit_states) != 0`.  The observable behaviour is
modelled as the sequence of events the task performs; a validation input is a
pair of the validation file name and the integer exit status recorded in
it. -/

/-- An observable event of `inspectValidations`: writing one line to the
summary file, closing the summary file, or raising the `ValueError`. -/
inductive VEvent where
  | writeLine (s : String)
  | closeFile
  | raiseError
deriving DecidableEq

/-- The summary line written for one validation file:
`"\t".join([validation_file, exit_status])`. -/
def summaryLine (p : String × ℤ) : String := p.1 ++ "\t" ++ toString p.2

/-- The event sequence performed by `inspectValidations`: one line per
validation file, then the close, then the raise when the exit codes do not
sum to zero. -/
def inspectValidations (files : List (String × ℤ)) : List VEvent :=
  (files.map (fun p => VEvent.writeLine (summaryLine p))) ++ [VEvent.closeFile] ++
    (if (files.map Prod.snd).sum ≠ 0 then [VEvent.raiseError] else [])

/-- The lines written to the summary file over a run. -/
def summaryLines (es : List VEvent) : List String :=
  es.filterMap (fun e =>
    match e with
    | VEvent.writeLine s => some s
    | _ => none)

/-- A concrete validation input set: file `a` passed, file `b` failed. -/
def demoValidations : List (String × ℤ) :=
  [("validate.cram.dir/a.validate", 0), ("validate.cram.dir/b.validate", 1)]

/-! ### Sentinel discipline (`pipeline_bamqc.py`, metric tasks)

Each metric task body is `P.run(statement, ...)` immediately followed by
`IOTools.touch_file(sentinel)`.  `P.run` raises on a failing external
command, in which case control leaves the task body before the touch.  The
file system is modelled as the list of files created so far; a task returns
the new state and whether it raised. -/

/-- `IOTools.touch_file`: create the given file. -/
def touch_file (files : List String) (f : String) : List String := f :: files

/-- A task body of the shape `P.run(statement); IOTools.touch_file(sentinel)`:
on success the command outputs appear and then the sentinel is touched; on a
failing command the exception propagates and the sentinel line is never
reached. -/
def runThenTouch (cmdSucceeds : Bool) (cmdOutputs : List String) (sentinel : String)
    (files : List String) : List String × Bool :=
  if cmdSucceeds then (touch_file (cmdOutputs ++ files) sentinel, false) else (files, true)

/-- Sentinel path of `collectRnaSeqMetrics` for one sample. -/
def sentinelOfRnaSeqMetrics (sample_id : String) : String :=
  "bam.qc.dir/rnaseq.metrics.dir/" ++ sample_id ++ ".rnaseq.metrics.sentinel"

/-- `collectRnaSeqMetrics` task body for one sample: run Picard
CollectRnaSeqMetrics (writing the metrics file, coverage histogram and
chart), then touch the sentinel. -/
def collectRnaSeqMetrics (cmdSucceeds : Bool) (sample_id : String)
    (files : List String) : List String × Bool :=
  runThenTouch cmdSucceeds
    ["bam.qc.dir/rnaseq.metrics.dir/" ++ sample_id ++ ".rnaseq.metrics",
     "bam.qc.dir/rnaseq.metrics.dir/" ++ sample_id ++ ".rnaseq.cov.hist",
     "bam.qc.dir/rnaseq.metrics.dir/" ++ sample_id ++ ".rnaseq.cov.pdf"]
    (sentinelOfRnaSeqMetrics sample_id) files

/-- Sentinel path of `fractionSpliced` for one sample. -/
def sentinelOfFractionSpliced (sample_id : String) : String :=
  "bam.qc.dir/fraction.spliced.dir/" ++ sample_id ++ ".fraction.spliced.sentinel"

/-- `fractionSpliced` task body for one sample: run the samtools/awk
pipeline writing the fraction-spliced file, then touch the sentinel. -/
def fractionSpliced (cmdSucceeds : Bool) (sample_id : String)
    (files : List String) : List String × Bool :=
  runThenTouch cmdSucceeds
    ["bam.qc.dir/fraction.spliced.dir/" ++ sample_id ++ ".fraction.spliced"]
    (sentinelOfFractionSpliced sample_id) files

/-! ### QC summary SQL assembly (`pipeline_bamqc.py`, `qcSummary`)

`qcSummary` assembles a SQL statement from the `PAIRED` flag and the
`run_estimateLibraryComplexity` configuration flag, then executes it.  The
assembly is transcribed below with the source's whitespace normalised to
single newlines; the table names are `P.to_table` of the fixed `@merge`
input list. -/

/-- Tables excluded from the join: for unpaired data the library-complexity
and insert-size tables. -/
def qcExclude (paired : Bool) : List String :=
  if paired then [] else ["qc_library_complexity", "qc_insert_size_metrics"]

/-- The paired-only select columns (empty for unpaired data). -/
def qcPairedColumns (paired : Bool) : String :=
  if paired then
    "PCT_READS_ALIGNED_IN_PAIRS as pct_reads_aligned_in_pairs,\nMEDIAN_INSERT_SIZE as median_insert_size,\n"
  else ""

/-- The category selected by the WHERE clause. -/
def qcPcat (paired : Bool) : String := if paired then "PAIR" else "UNPAIRED"

/-- The library-complexity select columns, present only when
`run_estimateLibraryComplexity` is enabled and the data is paired. -/
def qcElcColumns (run_estimateLibraryComplexity paired : Bool) : String :=
  if run_estimateLibraryComplexity && paired then
    "ESTIMATED_LIBRARY_SIZE as library_size,\nREAD_PAIRS_EXAMINED as no_pairs,\nPERCENT_DUPLICATION as pct_duplication,\n"
  else ""

/-- `P.to_table` of the `@merge` input list of `qcSummary`, in order. -/
def qcInfileTables : List String :=
  ["samples", "qc_rnaseq_metrics", "qc_three_prime_bias", "qc_library_complexity",
   "qc_fraction_spliced", "qc_alignment_summary_metrics", "qc_insert_size_metrics"]

/-- The joined tables: the input tables minus the excluded ones. -/
def qcTables (paired : Bool) : List String :=
  qcInfileTables.filter (fun t => decide (t ∉ qcExclude paired))

/-- The base table `t1 = tables[0]`. -/
def qcT1 (paired : Bool) : String := (qcTables paired).headD ""

/-- The `stat_start` fragment: the select list and the base table. -/
def qcStatStart (paired run_estimateLibraryComplexity : Bool) : String :=
  "select distinct samples.*,\nfraction_spliced,\nthree_prime_bias as three_prime_bias,\n" ++
    qcPairedColumns paired ++ qcElcColumns run_estimateLibraryComplexity paired ++
    "PCT_MRNA_BASES as pct_mrna,\nPCT_CODING_BASES as pct_coding,\nPCT_PF_READS_ALIGNED as pct_reads_aligned,\nTOTAL_READS as total_reads,\nPCT_ADAPTER as pct_adapter,\nPF_HQ_ALIGNED_READS*1.0/PF_READS as pct_pf_reads_aligned_hq\nfrom " ++
    qcT1 paired ++ "\n"

/-- The `join_stat` fragment: one left join per non-base table, on
`sample_id`. -/
def qcJoinStat (paired : Bool) : String :=
  String.join (((qcTables paired).drop 1).map (fun table =>
    "left join " ++ table ++ "\n" ++ "on " ++ qcT1 paired ++ ".sample_id=" ++
      table ++ ".sample_id\n"))

/-- The `where_stat` fragment selecting the alignment-summary category. -/
def qcWhereStat (paired : Bool) : String :=
  "where qc_alignment_summary_metrics.CATEGORY=\"" ++ qcPcat paired ++ "\"\n"

/-- The assembled SQL statement executed by `qcSummary`. -/
def qcSummaryStatement (paired run_estimateLibraryComplexity : Bool) : String :=
  qcStatStart paired run_estimateLibraryComplexity ++ "\n" ++ qcJoinStat paired ++ "\n" ++
    qcWhereStat paired

/-! ### QC summary relational semantics (`qcSummary` executed statement)

The statement executed by `qcSummary` is a chain of `left join`s of the
metric tables onto the base table on `sample_id`, followed by the
`CATEGORY` WHERE clause and `select distinct`.  Its semantics over a
database state is modelled relationally: a table is a column list plus rows
keyed by `sample_id`, with `none` as SQL NULL. -/

/-- A database table: column names, and rows given as the `sample_id` key
followed by the values of the table's columns (`none` is SQL NULL). -/
structure QTable where
  header : List String
  rows : List (String × List (Option String))
deriving DecidableEq

/-- An all-NULL tuple with one entry per column of `t`, produced by a left
join for base rows without a match in `t`. -/
def nullRow (t : QTable) : List (Option String) := t.header.map (fun _ => none)

/-- The rows of `t` whose `sample_id` equals `s`. -/
def matchesOf (t : QTable) (s : String) : List (String × List (Option String)) :=
  t.rows.filter (fun r => decide (r.1 = s))

/-- SQL `left join t on base.sample_id = t.sample_id`: every base row is
kept, once per matching row of `t`, or once with NULL columns when `t` has
no match. -/
def leftJoin (base t : QTable) : QTable :=
  { header := base.header ++ t.header,
    rows := base.rows.flatMap (fun r =>
      let ms := matchesOf t r.1
      if ms.isEmpty then [(r.1, r.2 ++ nullRow t)]
      else ms.map (fun m => (r.1, r.2 ++ m.2))) }

/-- Value of the named column in a row (first occurrence of the name). -/
def getCol : List String → List (Option String) → String → Option String
  | [], _, _ => none
  | _ :: _, [], _ => none
  | h :: hs, v :: vs, c => if h = c then v else getCol hs vs c

/-- The result of the `qcSummary` statement on a database state: the fold of
left joins over the metric tables, the `CATEGORY = pcat` WHERE clause (a
NULL category never matches), and `select distinct`. -/
def qcSummaryRows (base : QTable) (others : List QTable) (pcat : String) : QTable :=
  let j := others.foldl leftJoin base
  { header := j.header,
    rows := (j.rows.filter (fun r =>
      decide (getCol j.header r.2 "CATEGORY" = some pcat))).dedup }

/-- The columns a left-join chain appends for sample `s`: per metric table
its unique matching row, or NULLs when it has no match. -/
def extVals (others : List QTable) (s : String) : List (Option String) :=
  (others.map (fun t =>
    match matchesOf t s with
    | [] => nullRow t
    | m :: _ => m.2)).flatten

/-- A base (samples) table with two samples. -/
def demoSamples : QTable :=
  ⟨["sample_name"], [("s1", [some "sample one"]), ("s2", [some "sample two"])]⟩

/-- An alignment-summary metrics table covering only sample `s2`. -/
def demoAlignMetrics : QTable := ⟨["CATEGORY"], [("s2", [some "UNPAIRED"])]⟩

/-! ### Cell/CRAM grouping (`pipeline_cram2fastq.py`)

`extractSampleInformation` builds a dictionary from cell (the `SM` tag of
the FIRST read-group record of each CRAM header, `header["RG"][0]["SM"]`)
to the list of CRAM files, then writes `cells.txt`: a `#cell\tcram_files`
header line and one `cell\tcomma-joined-file-list` line per cell.
`cellCramLists` re-reads that file, skipping `#` lines, splitting each
record on tab into exactly two fields and the second field on commas, and
emits one per-cell file listing the cell's CRAM files.  File contents are
modelled as lists of lines, each line a list of characters. -/

/-- A CRAM file: its path, and the `SM` tag of each read-group (`RG`)
record of its header in header order. -/
structure CramFile where
  name : String
  rgSM : List String
deriving DecidableEq

/-- `cram.header["RG"][0]["SM"]`: the SM tag of the first read group,
`none` when the header has no read group (the source indexing raises). -/
def firstSM (f : CramFile) : Option String := f.rgSM.head?

/-- The grouping tag of a file: its first read-group SM tag (with a dummy
default for the no-read-group case the pipeline rejects). -/
def tagOf (f : CramFile) : String := f.rgSM.headD ""

/-- One step of the dictionary build: append the cram file name to its
cell's entry when the cell is already a key, otherwise add a new entry. -/
def updateCells (acc : List (String × List String)) (cell name : String) :
    List (String × List String) :=
  if acc.any (fun p => decide (p.1 = cell)) then
    acc.map (fun p => if p.1 = cell then (p.1, p.2 ++ [name]) else p)
  else acc ++ [(cell, [name])]

/-- The dictionary-building loop of `extractSampleInformation`, from a given
accumulator. -/
def buildCellsAux (acc : List (String × List String)) :
    List CramFile → Option (List (String × List String))
  | [] => some acc
  | f :: fs =>
    match firstSM f with
    | none => none
    | some c => buildCellsAux (updateCells acc c f.name) fs

/-- `extractSampleInformation`: the cell-to-cram-files dictionary in
insertion order, `none` when some header has no read group. -/
def extractSampleInformation (files : List CramFile) :
    Option (List (String × List String)) :=
  buildCellsAux [] files

/-- First-occurrence deduplication: the key order of a Python dict built by
insertion. -/
def firstKeys : List String → List String
  | [] => []
  | t :: ts => t :: (firstKeys ts).filter (fun x => decide (x ≠ t))

/-- The grouping of cram files by first-read-group SM tag: keys in first
occurrence order, each key's files in input order. -/
def groupSpec (files : List CramFile) : List (String × List String) :=
  (firstKeys (files.map tagOf)).map (fun t =>
    (t, (files.filter (fun f => decide (tagOf f = t))).map CramFile.name))

/-- `",".join` / `"\t".join` style joining of character lists. -/
def joinChar (sep : Char) : List (List Char) → List Char
  | [] => []
  | [p] => p
  | p :: ps => p ++ sep :: joinChar sep ps

/-- Python `str.split(sep)` on a character list: the list of fragments
between occurrences of the separator (never empty). -/
def splitChar (sep : Char) : List Char → List (List Char)
  | [] => [[]]
  | c :: cs =>
    match splitChar sep cs with
    | [] => [[]]
    | p :: ps => if c = sep then [] :: p :: ps else (c :: p) :: ps

/-- The lines of `cells.txt` written by `extractSampleInformation`: the
`#cell\tcram_files` header, then one `cell\tcomma-joined-crams` line per
cell. -/
def cellsFileLines (cells : List (String × List String)) : List (List Char) :=
  "#cell\tcram_files".data ::
    cells.map (fun p => p.1.data ++ '\t' :: joinChar ',' (p.2.map String.data))

/-- Parsing of one record by `cellCramLists`:
`cell, cram_list = record.strip("\n").split("\t")` (exactly two fields,
otherwise the unpacking raises), then `crams = cram_list.split(",")`. -/
def parseCellLine (line : List Char) : Option (List Char × List (List Char)) :=
  match splitChar '\t' line with
  | [cell, cramlist] => some (cell, splitChar ',' cramlist)
  | _ => none

/-- Parse every record, failing when any record fails. -/
def parseCellLines : List (List Char) → Option (List (List Char × List (List Char)))
  | [] => some []
  | l :: ls =>
    match parseCellLine l, parseCellLines ls with
    | some e, some es => some (e :: es)
    | _, _ => none

/-- `cellCramLists`: skip lines starting with `#`, parse each record, and
emit for each cell the per-cell file content (one cram file per line). -/
def cellCramLists (lines : List (List Char)) :
    Option (List (List Char × List (List Char))) :=
  parseCellLines (lines.filter (fun l => decide (l.head? ≠ some '#')))

/-- Concrete CRAM headers: files `a` and `c` share the first-read-group tag
`cellX`; files `b` and `c` carry extra read groups that the source never
inspects. -/
def demoCrams : List CramFile :=
  [⟨"data.dir/a.cram", ["cellX"]⟩,
   ⟨"data.dir/b.cram", ["cellY", "otherSM1"]⟩,
   ⟨"data.dir/c.cram", ["cellX", "otherSM2"]⟩]

end Txseq

namespace Txseq

/-- Unfolding of `npMean` on a non-empty list. -/
theorem npMean_ne_nil {l : List ℚ} (h : l ≠ []) :
    npMean l = some (l.sum / (l.length : ℚ)) := by
  rw [npMean, if_neg]
  simp [List.isEmpty_iff, h]

/-- C1: the bias computed by `threePrimeBias` equals the mean of the coverage
column over rows with `70 < normalized_position < 90` divided by the mean over
rows with `20 < normalized_position < 90` (narrow window over wide window),
whenever both windows are non-empty and the wide-window mean is non-zero. -/
theorem threePrimeBias_is_window_mean_ratio (df : List CovRow)
    (h1 : threePrimeWindow df ≠ [])
    (h2 : transcriptBodyWindow df ≠ [])
    (h3 : (transcriptBodyWindow df).sum ≠ 0) :
    threePrimeBias df =
      some (((threePrimeWindow df).sum / ((threePrimeWindow df).length : ℚ)) /
            ((transcriptBodyWindow df).sum / ((transcriptBodyWindow df).length : ℚ))) := by
  have hlen : ((transcriptBodyWindow df).length : ℚ) ≠ 0 := by
    simpa [List.length_eq_zero] using h2
  have hb : (transcriptBodyWindow df).sum / ((transcriptBodyWindow df).length : ℚ) ≠ 0 :=
    div_ne_zero h3 hlen
  rw [threePrimeBias, npMean_ne_nil h1, npMean_ne_nil h2]
  simp [hb]

/-- Witness for C1 at the concrete table `demoCovSimple`. -/
theorem threePrimeBias_is_window_mean_ratio_witness :
    threePrimeBias demoCovSimple =
      some (((threePrimeWindow demoCovSimple).sum /
              ((threePrimeWindow demoCovSimple).length : ℚ)) /
            ((transcriptBodyWindow demoCovSimple).sum /
              ((transcriptBodyWindow demoCovSimple).length : ℚ))) :=
  threePrimeBias_is_window_mean_ratio demoCovSimple
    (by norm_num [threePrimeWindow, demoCovSimple])
    (by have h : transcriptBodyWindow demoCovSimple = [4, 2] := by
          norm_num [transcriptBodyWindow, demoCovSimple]
        simp [h])
    (by norm_num [transcriptBodyWindow, demoCovSimple])

/-- C6: on a non-empty coverage table with no row strictly between positions
20 and 90, the wide window is empty, so the divisor of the bias computation is
the mean of no data; the unguarded division yields no rational result
(the `none` of the model, the NaN of the source). -/
theorem threePrimeBias_div_by_zero_reachable :
    demoCovEmptyBody ≠ [] ∧
    transcriptBodyWindow demoCovEmptyBody = [] ∧
    threePrimeBias demoCovEmptyBody = none := by
  refine ⟨by simp [demoCovEmptyBody], ?_, ?_⟩
  · norm_num [transcriptBodyWindow, demoCovEmptyBody]
  · norm_num [threePrimeBias, npMean, threePrimeWindow, transcriptBodyWindow, demoCovEmptyBody]

/-- C9: the bias file holds the `"%.2f"`-formatted bias under a
`three_prime_bias` header line, the `"%.2f"` value is always an integer
number of hundredths, and on the concrete table with exact bias `1/3` the
formatted-and-reparsed stored value is `round2 (1/3) = 33/100`, which differs
from the exact ratio. -/
theorem threePrimeBias_output_two_decimals :
    (∀ df q, threePrimeBias df = some q →
        threePrimeBiasFileLines df = some ["three_prime_bias", fmt2 q]) ∧
    (∀ q : ℚ, ∃ n : ℤ, round2 q = (n : ℚ) / 100) ∧
    threePrimeBias demoCovThird = some (1 / 3) ∧
    parseF2 (fmt2 (1 / 3)) = some (false, 0, 33) ∧
    f2Value (false, 0, 33) = round2 (1 / 3) ∧
    round2 (1 / 3) ≠ (1 / 3 : ℚ) := by
  have hr : round ((100 : ℚ) / 3) = 33 := by
    rw [round_eq, Int.floor_eq_iff]
    norm_num
  have hr0 : round ((100 : ℚ) * (1 / 3)) = 33 := by
    rw [show ((100 : ℚ) * (1 / 3)) = 100 / 3 by norm_num]
    exact hr
  have hfmt : fmt2 (1 / 3) = "0.33" := by
    simp only [fmt2, hr0]
    decide
  refine ⟨?_, ?_, ?_, ?_, ?_, ?_⟩
  · intro df q h
    simp [threePrimeBiasFileLines, h]
  · intro q
    exact ⟨round (100 * q), rfl⟩
  · norm_num [threePrimeBias, npMean, threePrimeWindow, transcriptBodyWindow, demoCovThird]
  · rw [hfmt]
    decide
  · norm_num [f2Value, round2, hr]
  · norm_num [round2, hr]

/-- Witness for C9's universally quantified conjuncts at the table
`demoCovThird`, whose bias is exactly `1/3`. -/
theorem threePrimeBias_output_two_decimals_witness :
    threePrimeBiasFileLines demoCovThird = some ["three_prime_bias", fmt2 (1 / 3)] :=
  threePrimeBias_output_two_decimals.1 demoCovThird (1 / 3)
    (threePrimeBias_output_two_decimals.2.2.1)

/-- A list of non-negative integers sums to zero exactly when all its
elements are zero. -/
theorem int_sum_eq_zero_iff {l : List ℤ} (h : ∀ x ∈ l, 0 ≤ x) :
    l.sum = 0 ↔ ∀ x ∈ l, x = 0 := by
  induction l with
  | nil => simp
  | cons a t ih =>
    have ha : 0 ≤ a := h a (by simp)
    have ht : ∀ x ∈ t, 0 ≤ x := fun x hx => h x (by simp [hx])
    have hts : 0 ≤ t.sum := List.sum_nonneg ht
    rw [List.sum_cons]
    constructor
    · intro hs
      have haz : a = 0 ∧ t.sum = 0 := by omega
      intro x hx
      rcases List.mem_cons.mp hx with rfl | hxt
      · exact haz.1
      · exact ((ih ht).mp haz.2) x hxt
    · intro hall
      have haz : a = 0 := hall a (by simp)
      have htz : t.sum = 0 := (ih ht).mpr (fun x hx => hall x (by simp [hx]))
      omega

/-- The raise event occurs exactly when the recorded exit codes do not sum
to zero. -/
theorem inspectValidations_raise_iff_sum (files : List (String × ℤ)) :
    VEvent.raiseError ∈ inspectValidations files ↔ (files.map Prod.snd).sum ≠ 0 := by
  by_cases hs : (files.map Prod.snd).sum = 0 <;> simp [inspectValidations, hs]

/-- C2: `inspectValidations` raises exactly when at least one recorded exit
code is non-zero; with all recorded exit codes zero it completes without
raising.  (Recorded exit codes are shell exit statuses, hence
non-negative.) -/
theorem inspectValidations_raises_iff (files : List (String × ℤ))
    (h : ∀ p ∈ files, 0 ≤ p.2) :
    VEvent.raiseError ∈ inspectValidations files ↔ ∃ p ∈ files, p.2 ≠ 0 := by
  rw [inspectValidations_raise_iff_sum]
  have h' : ∀ x ∈ files.map Prod.snd, 0 ≤ x := by
    intro x hx
    rcases List.mem_map.mp hx with ⟨p, hp, rfl⟩
    exact h p hp
  constructor
  · intro hne
    by_contra hno
    push_neg at hno
    exact hne ((int_sum_eq_zero_iff h').mpr (fun x hx => by
      rcases List.mem_map.mp hx with ⟨p, hp, rfl⟩
      exact hno p hp))
  · rintro ⟨p, hp, hne⟩ hz
    exact hne (((int_sum_eq_zero_iff h').mp hz) p.2 (List.mem_map_of_mem Prod.snd hp))

/-- Witness for C2 at a concrete input with one failing file. -/
theorem inspectValidations_raises_iff_witness :
    VEvent.raiseError ∈ inspectValidations demoValidations :=
  (inspectValidations_raises_iff demoValidations (by decide)).mpr
    ⟨("validate.cram.dir/b.validate", 1), by decide, by decide⟩

/-- If a list followed by a single `a` splits as `pre ++ a :: post` and `a`
does not occur in the list, the split point is the final `a`. -/
theorem append_singleton_split {α : Type} (a : α) :
    ∀ l₁ pre post : List α, l₁ ++ [a] = pre ++ a :: post → a ∉ l₁ → pre = l₁ := by
  intro l₁
  induction l₁ with
  | nil =>
    intro pre post h _
    cases pre with
    | nil => rfl
    | cons x pre' =>
      simp only [List.nil_append, List.cons_append, List.cons.injEq] at h
      exact absurd h.2 (by simp)
  | cons b t ih =>
    intro pre post h ha
    cases pre with
    | nil =>
      simp only [List.cons_append, List.nil_append, List.cons.injEq] at h
      exact absurd (h.1 ▸ List.mem_cons_self b t) ha
    | cons x pre' =>
      simp only [List.cons_append, List.cons.injEq] at h
      have := ih pre' post h.2 (fun hmem => ha (List.mem_cons_of_mem b hmem))
      simp [h.1, this]

/-- `summaryLines` distributes over trace concatenation. -/
theorem summaryLines_append (es1 es2 : List VEvent) :
    summaryLines (es1 ++ es2) = summaryLines es1 ++ summaryLines es2 := by
  simp [summaryLines]

/-- The write events of the summary loop yield exactly the per-file lines. -/
theorem summaryLines_writes (fs : List (String × ℤ)) :
    summaryLines (fs.map (fun p => VEvent.writeLine (summaryLine p))) =
      fs.map summaryLine := by
  induction fs with
  | nil => rfl
  | cons a t ih => simp [summaryLines] at ih ⊢ ; exact ih

/-- C7: the summary file receives exactly one tab-separated line per
validation input file, in order, and any raise event strictly follows the
close of the summary file. -/
theorem inspectValidations_summary_complete (files : List (String × ℤ)) :
    summaryLines (inspectValidations files) = files.map summaryLine ∧
    (summaryLines (inspectValidations files)).length = files.length ∧
    (∀ pre post, inspectValidations files = pre ++ VEvent.raiseError :: post →
      VEvent.closeFile ∈ pre) := by
  have hlines : summaryLines (inspectValidations files) = files.map summaryLine := by
    unfold inspectValidations
    rw [summaryLines_append, summaryLines_append, summaryLines_writes]
    by_cases hs : (files.map Prod.snd).sum = 0 <;> simp [summaryLines, hs]
  refine ⟨hlines, by rw [hlines]; simp, ?_⟩
  intro pre post hsplit
  by_cases hs : (files.map Prod.snd).sum = 0
  · exfalso
    have hmem : VEvent.raiseError ∈ inspectValidations files := by
      rw [hsplit]; simp
    rw [inspectValidations_raise_iff_sum] at hmem
    exact hmem hs
  · have htr : inspectValidations files =
        ((files.map (fun p => VEvent.writeLine (summaryLine p))) ++ [VEvent.closeFile]) ++
          [VEvent.raiseError] := by
      simp [inspectValidations, hs]
    rw [htr] at hsplit
    have hpre := append_singleton_split VEvent.raiseError
      ((files.map (fun p => VEvent.writeLine (summaryLine p))) ++ [VEvent.closeFile])
      pre post hsplit (by simp)
    rw [hpre]
    simp

/-- Witness for C7 at the concrete input `demoValidations`: the raise splits
off the trace and the close event lies before it. -/
theorem inspectValidations_summary_complete_witness :
    VEvent.closeFile ∈
      ([VEvent.writeLine (summaryLine ("validate.cram.dir/a.validate", 0)),
        VEvent.writeLine (summaryLine ("validate.cram.dir/b.validate", 1)),
        VEvent.closeFile] : List VEvent) :=
  (inspectValidations_summary_complete demoValidations).2.2
    [VEvent.writeLine (summaryLine ("validate.cram.dir/a.validate", 0)),
     VEvent.writeLine (summaryLine ("validate.cram.dir/b.validate", 1)),
     VEvent.closeFile] [] (by decide)

/-- C8: for the metric tasks `collectRnaSeqMetrics` and `fractionSpliced`,
the sentinel exists afterwards exactly when the external command succeeded,
and the task raises exactly when the command failed: a completed sentinel
implies the external command succeeded. -/
theorem sentinel_implies_success (ok : Bool) (sample_id : String) (files : List String)
    (h1 : sentinelOfRnaSeqMetrics sample_id ∉ files)
    (h2 : sentinelOfFractionSpliced sample_id ∉ files) :
    ((sentinelOfRnaSeqMetrics sample_id ∈ (collectRnaSeqMetrics ok sample_id files).1) ↔
        ok = true) ∧
    ((collectRnaSeqMetrics ok sample_id files).2 = true ↔ ok = false) ∧
    ((sentinelOfFractionSpliced sample_id ∈ (fractionSpliced ok sample_id files).1) ↔
        ok = true) ∧
    ((fractionSpliced ok sample_id files).2 = true ↔ ok = false) := by
  cases ok <;>
    simp [collectRnaSeqMetrics, fractionSpliced, runThenTouch, touch_file, h1, h2]

/-- Witness for C8 at sample `s1` on an empty file system with a failing
command: no sentinel is created and the task raises. -/
theorem sentinel_implies_success_witness :
    ((sentinelOfRnaSeqMetrics "s1" ∈ (collectRnaSeqMetrics false "s1" []).1) ↔
        false = true) ∧
    ((collectRnaSeqMetrics false "s1" []).2 = true ↔ false = false) ∧
    ((sentinelOfFractionSpliced "s1" ∈ (fractionSpliced false "s1" []).1) ↔
        false = true) ∧
    ((fractionSpliced false "s1" []).2 = true ↔ false = false) :=
  sentinel_implies_success false "s1" [] (by simp) (by simp)

/-- C4: the assembled SQL depends only on the two flags: with `paired`
false the library-complexity and insert-size tables are excluded, the
paired-only columns are omitted and the WHERE clause selects
`CATEGORY="UNPAIRED"`; with `paired` true the paired-only columns are
included and the WHERE clause selects `CATEGORY="PAIR"`; the
library-complexity columns appear exactly when both flags are true. -/
theorem qcSummaryStatement_flag_dependence :
    qcTables false = ["samples", "qc_rnaseq_metrics", "qc_three_prime_bias",
      "qc_fraction_spliced", "qc_alignment_summary_metrics"] ∧
    qcTables true = qcInfileTables ∧
    qcPairedColumns false = "" ∧
    qcPairedColumns true =
      "PCT_READS_ALIGNED_IN_PAIRS as pct_reads_aligned_in_pairs,\nMEDIAN_INSERT_SIZE as median_insert_size,\n" ∧
    qcWhereStat false = "where qc_alignment_summary_metrics.CATEGORY=\"UNPAIRED\"\n" ∧
    qcWhereStat true = "where qc_alignment_summary_metrics.CATEGORY=\"PAIR\"\n" ∧
    qcElcColumns true true =
      "ESTIMATED_LIBRARY_SIZE as library_size,\nREAD_PAIRS_EXAMINED as no_pairs,\nPERCENT_DUPLICATION as pct_duplication,\n" ∧
    qcElcColumns true false = "" ∧
    qcElcColumns false true = "" ∧
    qcElcColumns false false = "" := by
  decide

/-- A left join against a table with at most one matching row per sample
yields exactly one output row per base row. -/
theorem leftJoin_rows_of_unique (base t : QTable)
    (h : ∀ s, (matchesOf t s).length ≤ 1) :
    (leftJoin base t).rows = base.rows.map (fun r =>
      (r.1, r.2 ++
        match matchesOf t r.1 with
        | [] => nullRow t
        | m :: _ => m.2)) := by
  show base.rows.flatMap _ = _
  induction base.rows with
  | nil => rfl
  | cons a l ih =>
    rw [List.flatMap_cons, List.map_cons, ih]
    cases hm : matchesOf t a.1 with
    | nil => simp [hm]
    | cons m ms =>
      have hms : ms = [] := by
        have := h a.1
        rw [hm] at this
        simpa using this
      simp [hm, hms]

/-- Header of a left-join chain: the base columns followed by each joined
table's columns. -/
theorem foldl_leftJoin_header (others : List QTable) (base : QTable) :
    (others.foldl leftJoin base).header =
      base.header ++ (others.map QTable.header).flatten := by
  induction others generalizing base with
  | nil => simp
  | cons t ts ih =>
    rw [List.foldl_cons, ih]
    simp [leftJoin]

/-- Rows of a left-join chain when every joined table has at most one
matching row per sample: one row per base row, extended by `extVals`. -/
theorem foldl_leftJoin_rows (others : List QTable) (base : QTable)
    (h : ∀ t ∈ others, ∀ s, (matchesOf t s).length ≤ 1) :
    (others.foldl leftJoin base).rows =
      base.rows.map (fun r => (r.1, r.2 ++ extVals others r.1)) := by
  induction others generalizing base with
  | nil => simp [extVals]
  | cons t ts ih =>
    rw [List.foldl_cons,
      ih (leftJoin base t) (fun t' ht' => h t' (List.mem_cons_of_mem t ht')),
      leftJoin_rows_of_unique base t (h t (List.mem_cons_self t ts)),
      List.map_map]
    apply List.map_congr_left
    intro r _
    simp only [Function.comp_apply, extVals, List.map_cons, List.flatten_cons,
      List.append_assoc]

/-- C3 counterexample: with base samples `s1`, `s2` and an alignment-summary
table holding a `CATEGORY="UNPAIRED"` row only for `s2`, the summary output
has no row at all for `s1` (its NULL category fails the WHERE clause), not a
null-filled one. -/
theorem qcSummary_drops_unmatched_category_sample :
    "s1" ∈ demoSamples.rows.map Prod.fst ∧
    ((qcSummaryRows demoSamples [demoAlignMetrics] "UNPAIRED").rows.filter
        (fun r => decide (r.1 = "s1"))).length = 0 ∧
    ((qcSummaryRows demoSamples [demoAlignMetrics] "UNPAIRED").rows.filter
        (fun r => decide (r.1 = "s2"))).length = 1 := by
  decide

/-- C3 (amended): when base sample ids are distinct and every joined metric
table has at most one row per sample id, the output of the `qcSummary`
statement holds exactly one row per base-table sample that passes the
`CATEGORY` WHERE clause, each extended per metric table with its matching
row or with NULL-filled columns when the table has no match; base samples
whose joined `CATEGORY` is NULL or different are dropped. -/
theorem qcSummary_one_row_per_matching_sample (base : QTable) (others : List QTable)
    (pcat : String)
    (h1 : (base.rows.map Prod.fst).Nodup)
    (h2 : ∀ t ∈ others, ∀ s, (matchesOf t s).length ≤ 1) :
    (qcSummaryRows base others pcat).rows =
      (base.rows.map (fun r => (r.1, r.2 ++ extVals others r.1))).filter
        (fun r => decide (getCol (base.header ++ (others.map QTable.header).flatten)
          r.2 "CATEGORY" = some pcat)) := by
  show ((others.foldl leftJoin base).rows.filter _).dedup = _
  rw [foldl_leftJoin_rows others base h2, foldl_leftJoin_header]
  apply List.dedup_eq_self.mpr
  apply List.Nodup.filter
  apply List.Nodup.of_map Prod.fst
  rw [List.map_map]
  exact h1

/-- `firstKeys` has the same members as the original list. -/
theorem mem_firstKeys {a : String} : ∀ {l : List String}, a ∈ firstKeys l ↔ a ∈ l := by
  intro l
  induction l with
  | nil => simp [firstKeys]
  | cons t ts ih =>
    by_cases h : a = t
    · subst h
      simp [firstKeys]
    · simp [firstKeys, List.mem_filter, h, ih]

/-- `firstKeys` commutes with filtering. -/
theorem firstKeys_filter (q : String → Bool) :
    ∀ l : List String, firstKeys (l.filter q) = (firstKeys l).filter q := by
  intro l
  induction l with
  | nil => rfl
  | cons t ts ih =>
    by_cases h : q t = true
    · rw [List.filter_cons_of_pos h]
      show t :: (firstKeys (ts.filter q)).filter (fun x => decide (x ≠ t)) = _
      rw [ih, show firstKeys (t :: ts) =
          t :: (firstKeys ts).filter (fun x => decide (x ≠ t)) from rfl,
        List.filter_cons_of_pos h, List.filter_comm]
    · rw [List.filter_cons_of_neg h]
      rw [ih, show firstKeys (t :: ts) =
          t :: (firstKeys ts).filter (fun x => decide (x ≠ t)) from rfl,
        List.filter_cons_of_neg h, List.filter_comm]
      refine (List.filter_eq_self.mpr ?_).symm
      intro a ha
      rcases List.mem_filter.mp ha with ⟨-, haq⟩
      simp only [decide_eq_true_eq]
      intro hat
      rw [hat] at haq
      exact h haq

/-- A CRAM header with at least one read group has its first SM tag as
grouping tag. -/
theorem firstSM_eq_tagOf {f : CramFile} (h : f.rgSM ≠ []) :
    firstSM f = some (tagOf f) := by
  cases hl : f.rgSM with
  | nil => exact absurd hl h
  | cons a l => simp [firstSM, tagOf, hl]

/-- Characterisation of the dictionary-building loop: starting from an
accumulator with distinct keys, it extends each existing entry with the
matching files and appends the new tags in first-occurrence order, each with
its matching files. -/
theorem buildCellsAux_spec :
    ∀ (files : List CramFile) (acc : List (String × List String)),
      (∀ f ∈ files, f.rgSM ≠ []) →
      (acc.map Prod.fst).Nodup →
      buildCellsAux acc files = some
        (acc.map (fun p => (p.1, p.2 ++
            (files.filter (fun f => decide (tagOf f = p.1))).map CramFile.name)) ++
          (firstKeys ((files.map tagOf).filter
              (fun t => decide (t ∉ acc.map Prod.fst)))).map (fun t =>
            (t, (files.filter (fun f => decide (tagOf f = t))).map CramFile.name))) := by
  intro files
  induction files with
  | nil =>
    intro acc _ _
    simp [buildCellsAux, firstKeys]
  | cons f fs ih =>
    intro acc hrg hnd
    have hf : f.rgSM ≠ [] := hrg f (List.mem_cons_self f fs)
    have hrg' : ∀ g ∈ fs, g.rgSM ≠ [] := fun g hg => hrg g (List.mem_cons_of_mem f hg)
    have hstep : buildCellsAux acc (f :: fs) =
        buildCellsAux (updateCells acc (tagOf f) f.name) fs := by
      show (match firstSM f with
            | none => none
            | some c => buildCellsAux (updateCells acc c f.name) fs) = _
      rw [firstSM_eq_tagOf hf]
    rw [hstep]
    by_cases hc : tagOf f ∈ acc.map Prod.fst
    · have hany : acc.any (fun p => decide (p.1 = tagOf f)) = true := by
        rcases List.mem_map.mp hc with ⟨p, hp, hpt⟩
        exact List.any_eq_true.mpr ⟨p, hp, by simp [hpt]⟩
      have hupd : updateCells acc (tagOf f) f.name =
          acc.map (fun p => if p.1 = tagOf f then (p.1, p.2 ++ [f.name]) else p) := by
        rw [updateCells, if_pos hany]
      have hkeys : ((acc.map (fun p =>
          if p.1 = tagOf f then (p.1, p.2 ++ [f.name]) else p)).map Prod.fst) =
          acc.map Prod.fst := by
        rw [List.map_map]
        apply List.map_congr_left
        intro p _
        by_cases hp : p.1 = tagOf f <;> simp [hp]
      have hAcc : (acc.map (fun p =>
          if p.1 = tagOf f then (p.1, p.2 ++ [f.name]) else p)).map
            (fun p => (p.1, p.2 ++
              (fs.filter (fun g => decide (tagOf g = p.1))).map CramFile.name)) =
          acc.map (fun p => (p.1, p.2 ++
            ((f :: fs).filter (fun g => decide (tagOf g = p.1))).map CramFile.name)) := by
        rw [List.map_map]
        apply List.map_congr_left
        intro p _
        by_cases hp : p.1 = tagOf f
        · have hd : decide (tagOf f = p.1) = true := by simp [hp]
          simp [Function.comp_apply, if_pos hp, List.filter_cons, hd]
        · have hd : decide (tagOf f = p.1) = false := by
            simp only [decide_eq_false_iff_not]
            exact fun e => hp e.symm
          simp [Function.comp_apply, if_neg hp, List.filter_cons, hd]
      have hTail : ((firstKeys ((fs.map tagOf).filter (fun t =>
            decide (t ∉ (acc.map (fun p =>
              if p.1 = tagOf f then (p.1, p.2 ++ [f.name]) else p)).map Prod.fst)))).map
              (fun t => (t, (fs.filter (fun g =>
                decide (tagOf g = t))).map CramFile.name))) =
          ((firstKeys (((f :: fs).map tagOf).filter (fun t =>
            decide (t ∉ acc.map Prod.fst)))).map
              (fun t => (t, ((f :: fs).filter (fun g =>
                decide (tagOf g = t))).map CramFile.name))) := by
        rw [hkeys]
        have hdrop : ((f :: fs).map tagOf).filter
            (fun t => decide (t ∉ acc.map Prod.fst)) =
            (fs.map tagOf).filter (fun t => decide (t ∉ acc.map Prod.fst)) := by
          rw [List.map_cons, List.filter_cons_of_neg (by simp [hc])]
        rw [hdrop]
        apply List.map_congr_left
        intro t ht
        have htne : t ≠ tagOf f := by
          rcases List.mem_filter.mp (mem_firstKeys.mp ht) with ⟨-, hnot⟩
          intro he
          rw [he] at hnot
          simp [hc] at hnot
        rw [List.filter_cons_of_neg (by
          simp only [decide_eq_true_eq]
          exact fun e => htne e.symm)]
      rw [hupd, ih _ hrg' (by rw [hkeys]; exact hnd), hAcc, hTail]
    · have hany : acc.any (fun p => decide (p.1 = tagOf f)) = false := by
        rw [List.any_eq_false]
        intro p hp
        simp only [decide_eq_true_eq]
        intro he
        exact hc (List.mem_map.mpr ⟨p, hp, he⟩)
      have hupd : updateCells acc (tagOf f) f.name = acc ++ [(tagOf f, [f.name])] := by
        rw [updateCells, hany]
        simp
      have hkeys' : ((acc ++ [(tagOf f, [f.name])]).map Prod.fst).Nodup := by
        rw [List.map_append]
        simp [List.nodup_append, hnd, hc]
      have hAcc : acc.map (fun p => (p.1, p.2 ++
            (fs.filter (fun g => decide (tagOf g = p.1))).map CramFile.name)) =
          acc.map (fun p => (p.1, p.2 ++
            ((f :: fs).filter (fun g => decide (tagOf g = p.1))).map CramFile.name)) := by
        apply List.map_congr_left
        intro p hp
        have hpk : p.1 ∈ acc.map Prod.fst := List.mem_map_of_mem Prod.fst hp
        have hpne : tagOf f ≠ p.1 := fun he => hc (he ▸ hpk)
        rw [List.filter_cons_of_neg (by
          simp only [decide_eq_true_eq]
          exact hpne)]
      have hmid : (tagOf f, [f.name] ++
            (fs.filter (fun g => decide (tagOf g = tagOf f))).map CramFile.name) =
          (tagOf f, ((f :: fs).filter (fun g =>
            decide (tagOf g = tagOf f))).map CramFile.name) := by
        rw [List.filter_cons_of_pos (by simp)]
        simp
      have hsplit : firstKeys ((fs.map tagOf).filter (fun t =>
            decide (t ∉ (acc ++ [(tagOf f, [f.name])]).map Prod.fst))) =
          (firstKeys ((fs.map tagOf).filter (fun t =>
            decide (t ∉ acc.map Prod.fst)))).filter
              (fun x => decide (x ≠ tagOf f)) := by
        have hpred : ∀ t ∈ fs.map tagOf,
            (decide (t ∉ (acc ++ [(tagOf f, [f.name])]).map Prod.fst)) =
              ((fun x => decide (x ≠ tagOf f)) t &&
                (fun x => decide (x ∉ acc.map Prod.fst)) t) := by
          intro t _
          by_cases h1 : t = tagOf f <;> by_cases h2 : t ∈ acc.map Prod.fst <;>
            simp [h1, h2]
        rw [List.filter_congr hpred, ← List.filter_filter,
          firstKeys_filter (fun x => decide (x ≠ tagOf f))]
      have hTail : ((firstKeys ((fs.map tagOf).filter (fun t =>
            decide (t ∉ acc.map Prod.fst)))).filter
              (fun x => decide (x ≠ tagOf f))).map
            (fun t => (t, (fs.filter (fun g =>
              decide (tagOf g = t))).map CramFile.name)) =
          ((firstKeys ((fs.map tagOf).filter (fun t =>
            decide (t ∉ acc.map Prod.fst)))).filter
              (fun x => decide (x ≠ tagOf f))).map
            (fun t => (t, ((f :: fs).filter (fun g =>
              decide (tagOf g = t))).map CramFile.name)) := by
        apply List.map_congr_left
        intro t ht
        have htne : t ≠ tagOf f := by
          rcases List.mem_filter.mp ht with ⟨-, hne⟩
          simpa using hne
        rw [List.filter_cons_of_neg (by
          simp only [decide_eq_true_eq]
          exact fun e => htne e.symm)]
      have hffs : ((f :: fs).map tagOf).filter
          (fun t => decide (t ∉ acc.map Prod.fst)) =
          tagOf f :: (fs.map tagOf).filter (fun t =>
            decide (t ∉ acc.map Prod.fst)) := by
        rw [List.map_cons, List.filter_cons_of_pos (by simp [hc])]
      rw [hupd, ih _ hrg' hkeys', List.map_append, hsplit, hTail, hAcc, hffs,
        show firstKeys (tagOf f :: (fs.map tagOf).filter (fun t =>
            decide (t ∉ acc.map Prod.fst))) =
          tagOf f :: (firstKeys ((fs.map tagOf).filter (fun t =>
            decide (t ∉ acc.map Prod.fst)))).filter
              (fun x => decide (x ≠ tagOf f)) from rfl,
        List.map_cons, List.map_cons, List.map_nil]
      rw [List.append_assoc, List.singleton_append]
      congr 2
      exact congrArg₂ List.cons hmid rfl

/-- `extractSampleInformation` computes the grouping of cram files by
first-read-group SM tag whenever every header has a read group. -/
theorem extractSampleInformation_eq_groupSpec (files : List CramFile)
    (h : ∀ f ∈ files, f.rgSM ≠ []) :
    extractSampleInformation files = some (groupSpec files) := by
  rw [extractSampleInformation, buildCellsAux_spec files [] h (by simp)]
  simp [groupSpec]

/-- Characters of a joined list: the separator or a character of a part. -/
theorem mem_joinChar {sep c : Char} :
    ∀ {parts : List (List Char)}, c ∈ joinChar sep parts →
      c = sep ∨ ∃ p ∈ parts, c ∈ p := by
  intro parts
  induction parts with
  | nil =>
    intro h
    simp [joinChar] at h
  | cons p ps ih =>
    cases ps with
    | nil =>
      intro h
      exact Or.inr ⟨p, by simp, by simpa [joinChar] using h⟩
    | cons q qs =>
      intro h
      rw [show joinChar sep (p :: q :: qs) = p ++ sep :: joinChar sep (q :: qs) from rfl] at h
      rcases List.mem_append.mp h with hp | hrest
      · exact Or.inr ⟨p, by simp, hp⟩
      · rcases List.mem_cons.mp hrest with he | hj
        · exact Or.inl he
        · rcases ih hj with he | ⟨r, hr, hcr⟩
          · exact Or.inl he
          · exact Or.inr ⟨r, by simp [hr], hcr⟩

/-- `splitChar` never returns an empty fragment list. -/
theorem splitChar_ne_nil (sep : Char) : ∀ l : List Char, splitChar sep l ≠ [] := by
  intro l
  cases l with
  | nil => simp [splitChar]
  | cons c cs =>
    show (match splitChar sep cs with
          | [] => [[]]
          | p :: ps => if c = sep then [] :: p :: ps else (c :: p) :: ps) ≠ []
    cases splitChar sep cs with
    | nil => simp
    | cons p ps =>
      by_cases h : c = sep <;> simp [h]

/-- Splitting a list without the separator yields the single fragment. -/
theorem splitChar_of_not_mem {sep : Char} :
    ∀ {l : List Char}, sep ∉ l → splitChar sep l = [l] := by
  intro l
  induction l with
  | nil => intro _; rfl
  | cons c cs ih =>
    intro h
    have hc : c ≠ sep := fun e => h (e ▸ List.mem_cons_self c cs)
    have hcs : sep ∉ cs := fun m => h (List.mem_cons_of_mem c m)
    rw [show splitChar sep (c :: cs) =
        (match splitChar sep cs with
         | [] => [[]]
         | p :: ps => if c = sep then [] :: p :: ps else (c :: p) :: ps) from rfl,
      ih hcs]
    simp [hc]

/-- Splitting at an explicit separator occurrence after a clean fragment. -/
theorem splitChar_append {sep : Char} {r : List Char} :
    ∀ {l : List Char}, sep ∉ l → splitChar sep (l ++ sep :: r) = l :: splitChar sep r := by
  intro l
  induction l with
  | nil =>
    intro _
    obtain ⟨p, ps, hp⟩ : ∃ p ps, splitChar sep r = p :: ps := by
      cases h : splitChar sep r with
      | nil => exact absurd h (splitChar_ne_nil sep r)
      | cons p ps => exact ⟨p, ps, rfl⟩
    show splitChar sep (sep :: r) = [] :: splitChar sep r
    rw [show splitChar sep (sep :: r) =
        (match splitChar sep r with
         | [] => [[]]
         | p :: ps => if sep = sep then [] :: p :: ps else (sep :: p) :: ps) from rfl,
      hp]
    simp
  | cons c cs ih =>
    intro h
    have hc : c ≠ sep := fun e => h (e ▸ List.mem_cons_self c cs)
    have hcs : sep ∉ cs := fun m => h (List.mem_cons_of_mem c m)
    show splitChar sep (c :: (cs ++ sep :: r)) = (c :: cs) :: splitChar sep r
    rw [show splitChar sep (c :: (cs ++ sep :: r)) =
        (match splitChar sep (cs ++ sep :: r) with
         | [] => [[]]
         | p :: ps => if c = sep then [] :: p :: ps else (c :: p) :: ps) from rfl,
      ih hcs]
    simp [hc]

/-- Round trip: splitting a separator-joined list of clean non-empty parts
recovers the parts (Python `sep.join(xs).split(sep) == xs`). -/
theorem splitChar_joinChar {sep : Char} :
    ∀ {parts : List (List Char)}, parts ≠ [] → (∀ p ∈ parts, sep ∉ p) →
      splitChar sep (joinChar sep parts) = parts := by
  intro parts
  induction parts with
  | nil => intro h _; exact absurd rfl h
  | cons p ps ih =>
    intro _ hmem
    cases ps with
    | nil =>
      rw [show joinChar sep [p] = p from rfl]
      exact splitChar_of_not_mem (hmem p (by simp))
    | cons q qs =>
      rw [show joinChar sep (p :: q :: qs) = p ++ sep :: joinChar sep (q :: qs) from rfl,
        splitChar_append (hmem p (by simp)),
        ih (by simp) (fun r hr => hmem r (List.mem_cons_of_mem p hr))]

/-- Parsing a written `cells.txt` record recovers the cell and its cram
files, provided the names are free of the delimiter characters. -/
theorem parseCellLine_written {cell : String} {crams : List String}
    (hcell : '\t' ∉ cell.data) (hcr : crams ≠ [])
    (hmem : ∀ n ∈ crams, '\t' ∉ n.data ∧ ',' ∉ n.data) :
    parseCellLine (cell.data ++ '\t' :: joinChar ',' (crams.map String.data)) =
      some (cell.data, crams.map String.data) := by
  have hnotab : '\t' ∉ joinChar ',' (crams.map String.data) := by
    intro hm
    rcases mem_joinChar hm with he | ⟨p, hp, hcp⟩
    · exact absurd he (by decide)
    · rcases List.mem_map.mp hp with ⟨n, hn, rfl⟩
      exact (hmem n hn).1 hcp
  simp only [parseCellLine, splitChar_append hcell, splitChar_of_not_mem hnotab]
  rw [splitChar_joinChar (by simpa using hcr) (fun p hp => by
    rcases List.mem_map.mp hp with ⟨n, hn, rfl⟩
    exact (hmem n hn).2)]

/-- Parsing all written records recovers all cells. -/
theorem parseCellLines_written :
    ∀ (cells : List (String × List String)),
      (∀ p ∈ cells, '\t' ∉ p.1.data) →
      (∀ p ∈ cells, p.2 ≠ [] ∧ ∀ n ∈ p.2, '\t' ∉ n.data ∧ ',' ∉ n.data) →
      parseCellLines (cells.map (fun p =>
          p.1.data ++ '\t' :: joinChar ',' (p.2.map String.data))) =
        some (cells.map (fun p => (p.1.data, p.2.map String.data))) := by
  intro cells
  induction cells with
  | nil => intro _ _; rfl
  | cons p ps ih =>
    intro hc hn
    rw [List.map_cons]
    show (match parseCellLine (p.1.data ++ '\t' :: joinChar ',' (p.2.map String.data)),
          parseCellLines (ps.map (fun p =>
            p.1.data ++ '\t' :: joinChar ',' (p.2.map String.data))) with
          | some e, some es => some (e :: es)
          | _, _ => none) = _
    rw [parseCellLine_written (hc p (by simp)) (hn p (by simp)).1 (hn p (by simp)).2,
      ih (fun q hq => hc q (List.mem_cons_of_mem p hq))
        (fun q hq => hn q (List.mem_cons_of_mem p hq))]
    simp

/-- `cellCramLists` applied to a written `cells.txt` recovers every cell's
cram file list: the header line is skipped, every record parses. -/
theorem cellCramLists_written (cells : List (String × List String))
    (hc : ∀ p ∈ cells, '\t' ∉ p.1.data ∧ p.1.data.head? ≠ some '#')
    (hn : ∀ p ∈ cells, p.2 ≠ [] ∧ ∀ n ∈ p.2, '\t' ∉ n.data ∧ ',' ∉ n.data) :
    cellCramLists (cellsFileLines cells) =
      some (cells.map (fun p => (p.1.data, p.2.map String.data))) := by
  rw [cellCramLists, cellsFileLines,
    List.filter_cons_of_neg (by decide)]
  rw [List.filter_eq_self.mpr (by
    intro l hl
    rcases List.mem_map.mp hl with ⟨p, hp, rfl⟩
    simp only [decide_eq_true_eq]
    cases hd : p.1.data with
    | nil => simp
    | cons a as =>
      have h2 := (hc p hp).2
      rw [hd] at h2
      simpa using h2)]
  exact parseCellLines_written cells (fun p hp => (hc p hp).1) hn

/-- Witness for C3's amended theorem at the concrete database state
`demoSamples` / `demoAlignMetrics`. -/
theorem qcSummary_one_row_per_matching_sample_witness :
    (qcSummaryRows demoSamples [demoAlignMetrics] "UNPAIRED").rows =
      (demoSamples.rows.map (fun r => (r.1, r.2 ++ extVals [demoAlignMetrics] r.1))).filter
        (fun r => decide (getCol (demoSamples.header ++
          ([demoAlignMetrics].map QTable.header).flatten) r.2 "CATEGORY" =
            some "UNPAIRED")) :=
  qcSummary_one_row_per_matching_sample demoSamples [demoAlignMetrics] "UNPAIRED"
    (by decide)
    (by
      intro t ht s
      have h : t = demoAlignMetrics := by simpa using ht
      subst h
      exact le_trans (List.length_filter_le _ _) (by simp [demoAlignMetrics]))

/-- C5: for any fixed set of (cram file, first-SM sample tag) pairs whose
names and tags are free of the serialisation delimiters, the
`extractSampleInformation` table equals the grouping by first-SM tag, the
per-cell files emitted by `cellCramLists` reproduce it exactly, and each
cell's file contains exactly the cram files sharing that sample tag
(membership both ways, hence order-independent set equality). -/
theorem cellCramLists_groups_by_first_sm (files : List CramFile)
    (hrg : ∀ f ∈ files, f.rgSM ≠ [])
    (hname : ∀ f ∈ files, '\t' ∉ f.name.data ∧ ',' ∉ f.name.data)
    (htag : ∀ f ∈ files, '\t' ∉ (tagOf f).data ∧ (tagOf f).data.head? ≠ some '#') :
    ∃ cells, extractSampleInformation files = some cells ∧ cells = groupSpec files ∧
      cellCramLists (cellsFileLines cells) =
        some (cells.map (fun p => (p.1.data, p.2.map String.data))) ∧
      ∀ t crams, (t, crams) ∈ cells →
        ∀ n, n ∈ crams ↔ ∃ f ∈ files, firstSM f = some t ∧ f.name = n := by
  refine ⟨groupSpec files, extractSampleInformation_eq_groupSpec files hrg, rfl, ?_, ?_⟩
  · apply cellCramLists_written
    · intro p hp
      rcases List.mem_map.mp hp with ⟨t, ht, rfl⟩
      rcases List.mem_map.mp (mem_firstKeys.mp ht) with ⟨f, hf, rfl⟩
      exact htag f hf
    · intro p hp
      rcases List.mem_map.mp hp with ⟨t, ht, rfl⟩
      constructor
      · rcases List.mem_map.mp (mem_firstKeys.mp ht) with ⟨f, hf, rfl⟩
        have hfin : f ∈ files.filter (fun g => decide (tagOf g = tagOf f)) :=
          List.mem_filter.mpr ⟨hf, by simp⟩
        intro hnil
        rw [List.map_eq_nil_iff] at hnil
        exact absurd (hnil ▸ hfin) (List.not_mem_nil f)
      · intro n hnm
        rcases List.mem_map.mp hnm with ⟨f, hf, rfl⟩
        exact hname f (List.mem_filter.mp hf).1
  · intro t crams hmem n
    rcases List.mem_map.mp hmem with ⟨t', ht', he⟩
    have h1 : t' = t := congrArg Prod.fst he
    subst h1
    have h2 : (files.filter (fun g => decide (tagOf g = t'))).map CramFile.name = crams :=
      congrArg Prod.snd he
    subst h2
    constructor
    · intro hn
      rcases List.mem_map.mp hn with ⟨f, hf, rfl⟩
      rcases List.mem_filter.mp hf with ⟨hffiles, hft⟩
      refine ⟨f, hffiles, ?_, rfl⟩
      rw [firstSM_eq_tagOf (hrg f hffiles)]
      simp only [decide_eq_true_eq] at hft
      rw [hft]
    · rintro ⟨f, hffiles, hsm, rfl⟩
      have htg : tagOf f = t' := by
        rw [firstSM_eq_tagOf (hrg f hffiles)] at hsm
        exact Option.some.inj hsm
      exact List.mem_map_of_mem CramFile.name
        (List.mem_filter.mpr ⟨hffiles, by simp [htg]⟩)

/-- Witness for C5 at the concrete CRAM set `demoCrams`. -/
theorem cellCramLists_groups_by_first_sm_witness :
    ∃ cells, extractSampleInformation demoCrams = some cells ∧
      cells = groupSpec demoCrams ∧
      cellCramLists (cellsFileLines cells) =
        some (cells.map (fun p => (p.1.data, p.2.map String.data))) ∧
      ∀ t crams, (t, crams) ∈ cells →
        ∀ n, n ∈ crams ↔ ∃ f ∈ demoCrams, firstSM f = some t ∧ f.name = n :=
  cellCramLists_groups_by_first_sm demoCrams (by decide) (by decide) (by decide)

/-- The dictionary-building loop only inspects each file's name and first
read-group SM tag. -/
theorem buildCellsAux_first_rg :
    ∀ (files1 files2 : List CramFile) (acc : List (String × List String)),
      files1.map (fun f => (f.name, f.rgSM.head?)) =
        files2.map (fun f => (f.name, f.rgSM.head?)) →
      buildCellsAux acc files1 = buildCellsAux acc files2 := by
  intro files1
  induction files1 with
  | nil =>
    intro files2 acc h
    cases files2 with
    | nil => rfl
    | cons g gs => simp at h
  | cons f fs ih =>
    intro files2 acc h
    cases files2 with
    | nil => simp at h
    | cons g gs =>
      simp only [List.map_cons, List.cons.injEq, Prod.mk.injEq] at h
      obtain ⟨⟨hn, hh⟩, ht⟩ := h
      have hfg : firstSM f = firstSM g := hh
      rw [show buildCellsAux acc (f :: fs) =
          (match firstSM f with
           | none => none
           | some c => buildCellsAux (updateCells acc c f.name) fs) from rfl,
        show buildCellsAux acc (g :: gs) =
          (match firstSM g with
           | none => none
           | some c => buildCellsAux (updateCells acc c g.name) gs) from rfl,
        hfg, hn]
      cases firstSM g with
      | none => rfl
      | some c => exact ih gs (updateCells acc c g.name) ht

/-- C10: the output of `extractSampleInformation` depends only on each
file's name and the SM tag of its FIRST read group
(`header["RG"][0]["SM"]`); all further read groups are ignored. -/
theorem extractSampleInformation_first_rg_only (files1 files2 : List CramFile)
    (h : files1.map (fun f => (f.name, f.rgSM.head?)) =
         files2.map (fun f => (f.name, f.rgSM.head?))) :
    extractSampleInformation files1 = extractSampleInformation files2 :=
  buildCellsAux_first_rg files1 files2 [] h

/-- Witness for C10: adding a second read group with a different SM tag
leaves the grouping unchanged. -/
theorem extractSampleInformation_first_rg_only_witness :
    extractSampleInformation [⟨"data.dir/m.cram", ["cellZ"]⟩] =
      extractSampleInformation [⟨"data.dir/m.cram", ["cellZ", "otherSM"]⟩] :=
  extractSampleInformation_first_rg_only
    [⟨"data.dir/m.cram", ["cellZ"]⟩]
    [⟨"data.dir/m.cram", ["cellZ", "otherSM"]⟩] (by decide)

end Txseq
